import Mathlib

/-!
Verification of the geospatial containment engine of the sinking_real_estate
repository (src/analysis/geo_location.py).

The Python module is shallowly embedded: coordinates (Python floats) are
modelled as rationals, fallible operations (list indexing on an empty list,
raising of exceptions) are modelled with Option, and the Polars data frame of
mark_points_in_polygons is modelled as a list of records.  Python names are
kept wherever Lean allows.
-/

namespace Geo

/- The Batteries rational-number operations are irreducible by default, which
blocks kernel evaluation in concrete computations; restore reducibility. -/
attribute [local semireducible] Rat.add Rat.sub Rat.mul Rat.inv Rat.ofScientific

/-- Stand-in for the float constant EPSILON = 0.00001 of geo_location.py. -/
def EPSILON : ℚ := 1 / 100000

/-- Stand-in for TINY = sys.float_info.min = 2 ^ (-1022); written as an
explicit numeral (the denominator is 2 ^ 1022) so that the kernel can
evaluate comparisons against it. -/
def TINY : ℚ := 1 / 44942328371557897693232629769725618340449424473557664318357520289433168951375240783177119330601884005280028469967848339414697442203604155623211857659868531094441973356216371319075554900311523529863270738021251442209537670585615720368478277635206809290837627671146574559986811484619929076208839082406056034304

/-- Stand-in for INFINITY = sys.float_info.max; modelled as 2 ^ 1024 (the
first power of two above the largest finite double), written as an explicit
numeral. -/
def INFINITY : ℚ := 179769313486231590772930519078902473361797697894230657273430081157732675805500963132708477322407536021120113879871393357658789768814416622492847430639474124377767893424865485276302219601246094119453082952085005768838150682342462881473913110540827237163350510684586298239947245938479716304835356329624224137216

/-- A 2D point; x is longitude, y is latitude (class Point of the source). -/
structure Point where
  x : ℚ
  y : ℚ
deriving DecidableEq, Inhabited, Repr

/-- A line segment between two points (class Edge of the source). -/
structure Edge where
  start : Point
  «end» : Point
deriving DecidableEq, Inhabited, Repr

/-- A polygon represented by its edges (class Polygon of the source). -/
structure Polygon where
  edges : List Edge
deriving DecidableEq, Inhabited, Repr

/-- A polygon with its precomputed bounding box (class PolygonWithBBox). -/
structure PolygonWithBBox where
  polygon : Polygon
  min_p : Point
  max_p : Point
deriving DecidableEq, Inhabited, Repr

/-- The epsilon nudge of _ray_intersects_segment: if point.y equals the y of
either (already normalized) endpoint, the point is moved up by EPSILON. -/
def nudgePoint (point s e : Point) : Point :=
  if point.y = s.y ∨ point.y = e.y then Point.mk point.x (point.y + EPSILON) else point

/-- Body of _ray_intersects_segment after the normalizing swap: s and e are
the edge endpoints with s.y <= e.y whenever the caller normalized them.
Mirrors lines 232-251 of geo_location.py. -/
def rayCore (point s e : Point) : Bool :=
  let p := nudgePoint point s e
  if (p.y > e.y ∨ p.y < s.y) ∨ p.x > max s.x e.x then false
  else if p.x < min s.x e.x then true
  else
    let slope_edge := if |s.x - e.x| > TINY then (e.y - s.y) / (e.x - s.x) else INFINITY
    let slope_point := if |s.x - p.x| > TINY then (p.y - s.y) / (p.x - s.x) else INFINITY
    decide (slope_point ≥ slope_edge)

/-- Determines if a horizontal ray cast from a point intersects a segment
(_ray_intersects_segment of the source): first normalize the edge so that
start.y <= end.y, then run the common body. -/
def _ray_intersects_segment (point : Point) (edge : Edge) : Bool :=
  if edge.start.y > edge.«end».y then rayCore point edge.«end» edge.start
  else rayCore point edge.start edge.«end»

/-- Ray casting point-in-polygon test (_is_point_inside_polygon of the
source).  The Python sum of booleans is the count of edges for which the
crossing test returns true. -/
def _is_point_inside_polygon (point : Point) (polygon : Polygon) : Bool :=
  (polygon.edges.countP (fun e => _ray_intersects_segment point e)) % 2 == 1

/-- Bounding box membership test (_is_point_in_bbox of the source). -/
def _is_point_in_bbox (point min_p max_p : Point) : Bool :=
  decide (min_p.x ≤ point.x ∧ point.x ≤ max_p.x) &&
  decide (min_p.y ≤ point.y ∧ point.y ≤ max_p.y)

/-- Checks whether a point falls in any processed polygon
(_check_point_in_any_polygon of the source).  The per-component fallback
final_lat = approx_lat if lat is None else lat is modelled by the match; a
missing resolved component yields false; the loop with early return is
List.any. -/
def _check_point_in_any_polygon (lat lon approx_lat approx_lon : Option ℚ)
    (processed_polygons : List PolygonWithBBox) : Bool :=
  let final_lat := match lat with | none => approx_lat | some v => some v
  let final_lon := match lon with | none => approx_lon | some v => some v
  match final_lat, final_lon with
  | some la, some lo =>
    processed_polygons.any (fun p =>
      _is_point_in_bbox (Point.mk lo la) p.min_p p.max_p &&
      _is_point_inside_polygon (Point.mk lo la) p.polygon)
  | _, _ => false

/-- Python min over a list, total with an unreachable default for []
(min of an empty sequence raises in Python; all call sites pass nonempty
lists). -/
def listMin : List ℚ → ℚ
  | [] => 0
  | x :: t => t.foldl min x

/-- Python max over a list, with an unreachable default for []. -/
def listMax : List ℚ → ℚ
  | [] => 0
  | x :: t => t.foldl max x

/-- Bounding box of a polygon (_get_bounding_box of the source).  The Python
code indexes polygon.edges[-1], which raises IndexError when the edge list is
empty; that failure is modelled by none. -/
def _get_bounding_box (polygon : Polygon) : Option (Point × Point) :=
  match polygon.edges.getLast? with
  | none => none
  | some lastEdge =>
    let xs := polygon.edges.map (fun e => e.start.x) ++ [lastEdge.«end».x]
    let ys := polygon.edges.map (fun e => e.start.y) ++ [lastEdge.«end».y]
    some (Point.mk (listMin xs) (listMin ys), Point.mk (listMax xs) (listMax ys))

/-- Precomputes bounding boxes (_preprocess_polygons of the source); a raise
in the loop body propagates, modelled by the Option chain. -/
def _preprocess_polygons : List Polygon → Option (List PolygonWithBBox)
  | [] => some []
  | polygon :: rest =>
    match _get_bounding_box polygon with
    | none => none
    | some (min_p, max_p) =>
      match _preprocess_polygons rest with
      | none => none
      | some processed => some (PolygonWithBBox.mk polygon min_p max_p :: processed)

/-- One row of the Polars data frame consumed by mark_points_in_polygons:
the four coordinate columns, each possibly null. -/
structure PointRecord where
  lat : Option ℚ
  lon : Option ℚ
  approximateLat : Option ℚ
  approximateLon : Option ℚ
deriving DecidableEq, Inhabited, Repr

/-- Marks the records that fall in any polygon (mark_points_in_polygons of
the source).  The returned list models the added boolean column, in row
order. -/
def mark_points_in_polygons (df : List PointRecord) (polygons : List Polygon) :
    Option (List Bool) :=
  match _preprocess_polygons polygons with
  | none => none
  | some processed_polygons =>
    some (df.map (fun r =>
      _check_point_in_any_polygon r.lat r.lon r.approximateLat r.approximateLon
        processed_polygons))

/-- The vertices a bounding box is computed from: the start point of every
edge plus the end point of the final edge. -/
def vertices (p : Polygon) : List Point :=
  p.edges.map Edge.start ++
    (match p.edges.getLast? with
     | some e => [e.«end»]
     | none => [])

/-- A closed ring in the sense of the spec: each edge ends where the
(cyclically) next one starts. -/
def ClosedRing (p : Polygon) : Prop :=
  ∀ i, i < p.edges.length →
    (p.edges.getD i default).«end» =
    (p.edges.getD ((i + 1) % p.edges.length) default).start

instance decidableClosedRing (p : Polygon) : Decidable (ClosedRing p) :=
  decidable_of_iff
    (∀ i, i < p.edges.length →
      (p.edges.getD i default).«end» =
      (p.edges.getD ((i + 1) % p.edges.length) default).start)
    Iff.rfl

/-- The edge list the extractor builds from a list of parsed points: one edge
per point, from points[i] to points[(i+1) % n] (lines 91-94 of the source). -/
def mkEdges (points : List Point) : List Edge :=
  (List.range points.length).map (fun i =>
    Edge.mk (points.getD i default) (points.getD ((i + 1) % points.length) default))

/-! Helper lemmas about the crossing test. -/

lemma EPSILON_pos : 0 < EPSILON := by norm_num [EPSILON]

lemma nudgePoint_x (pt s e : Point) : (nudgePoint pt s e).x = pt.x := by
  unfold nudgePoint
  split <;> rfl

lemma nudgePoint_y_ge (pt s e : Point) : pt.y ≤ (nudgePoint pt s e).y := by
  unfold nudgePoint
  split
  · simpa using le_of_lt (by linarith [EPSILON_pos] : pt.y < pt.y + EPSILON)
  · exact le_refl _

lemma nudgePoint_of_ne (pt s e : Point) (h1 : pt.y ≠ s.y) (h2 : pt.y ≠ e.y) :
    nudgePoint pt s e = pt := by
  unfold nudgePoint
  rw [if_neg]
  rintro (h | h) <;> [exact h1 h; exact h2 h]

lemma rayCore_of_reject (pt s e : Point)
    (h : ((nudgePoint pt s e).y > e.y ∨ (nudgePoint pt s e).y < s.y) ∨
          (nudgePoint pt s e).x > max s.x e.x) :
    rayCore pt s e = false := by
  unfold rayCore
  rw [if_pos h]

lemma rayCore_false_of_above (pt s e : Point) (_h1 : s.y < pt.y) (h2 : e.y < pt.y) :
    rayCore pt s e = false := by
  refine rayCore_of_reject pt s e (Or.inl (Or.inl ?_))
  exact lt_of_lt_of_le h2 (nudgePoint_y_ge pt s e)

lemma rayCore_false_of_below (pt s e : Point) (h1 : pt.y < s.y) (h2 : pt.y < e.y) :
    rayCore pt s e = false := by
  refine rayCore_of_reject pt s e (Or.inl (Or.inr ?_))
  rw [nudgePoint_of_ne pt s e (ne_of_lt h1) (ne_of_lt h2)]
  exact h1

lemma rayCore_false_of_right (pt s e : Point) (h1 : s.x < pt.x) (h2 : e.x < pt.x) :
    rayCore pt s e = false := by
  refine rayCore_of_reject pt s e (Or.inr ?_)
  rw [nudgePoint_x]
  exact max_lt h1 h2

lemma rayCore_horizontal (pt s e : Point) (h : s.y = e.y) :
    rayCore pt s e = false := by
  by_cases hy : pt.y = s.y
  · refine rayCore_of_reject pt s e (Or.inl (Or.inl ?_))
    have hnudge : nudgePoint pt s e = Point.mk pt.x (pt.y + EPSILON) := by
      unfold nudgePoint
      rw [if_pos (Or.inl hy)]
    rw [hnudge]
    have : e.y = pt.y := by rw [← h, ← hy]
    rw [this]
    simpa using EPSILON_pos
  · have hy2 : pt.y ≠ e.y := fun hc => hy (by rw [hc, ← h])
    rcases lt_or_gt_of_ne hy with hlt | hgt
    · exact rayCore_false_of_below pt s e hlt (h ▸ hlt)
    · exact rayCore_false_of_above pt s e hgt (h ▸ hgt)

lemma ray_intersects_horizontal (pt : Point) (ed : Edge) (h : ed.start.y = ed.«end».y) :
    _ray_intersects_segment pt ed = false := by
  unfold _ray_intersects_segment
  split
  · exact rayCore_horizontal pt ed.«end» ed.start h.symm
  · exact rayCore_horizontal pt ed.start ed.«end» h

lemma ray_intersects_comm (pt a b : Point) :
    _ray_intersects_segment pt (Edge.mk a b) = _ray_intersects_segment pt (Edge.mk b a) := by
  unfold _ray_intersects_segment
  rcases lt_trichotomy a.y b.y with hlt | heq | hgt
  · rw [if_neg (by simpa using le_of_lt hlt), if_pos (by simpa using hlt)]
  · rw [if_neg (by simpa using le_of_eq heq), if_neg (by simpa using le_of_eq heq.symm)]
    rw [rayCore_horizontal pt a b heq, rayCore_horizontal pt b a heq.symm]
  · rw [if_pos (by simpa using hgt), if_neg (by simpa using le_of_lt hgt)]

lemma countP_filter_drop_false {α : Type} (p q : α → Bool) (l : List α)
    (h : ∀ x ∈ l, q x = false → p x = false) :
    l.countP p = (l.filter q).countP p := by
  induction l with
  | nil => rfl
  | cons a t ih =>
    have ht : ∀ x ∈ t, q x = false → p x = false := fun x hx => h x (List.mem_cons_of_mem a hx)
    by_cases hq : q a = true
    · rw [List.filter_cons_of_pos hq, List.countP_cons, List.countP_cons, ih ht]
    · have hq' : q a = false := by simpa using hq
      rw [List.filter_cons_of_neg (by simp [hq']), List.countP_cons,
        h a (List.mem_cons_self a t) hq', ih ht]
      simp

/-- Reversal of a ring: every edge is reversed and the edge order is
reversed, turning a clockwise vertex order into a counter-clockwise one. -/
def reversePolygon (p : Polygon) : Polygon :=
  Polygon.mk ((p.edges.map (fun e => Edge.mk e.«end» e.start)).reverse)

/-- C9: a horizontal edge (equal endpoint y, including zero-length edges)
never counts as a ray crossing, and dropping all horizontal edges of a
polygon leaves the containment verdict unchanged. -/
theorem C9_horizontal_edge_never_crosses (pt : Point) (ed : Edge)
    (h : ed.start.y = ed.«end».y) :
    _ray_intersects_segment pt ed = false ∧
    ∀ poly : Polygon,
      _is_point_inside_polygon pt poly =
        _is_point_inside_polygon pt
          (Polygon.mk (poly.edges.filter (fun e => !(e.start.y == e.«end».y)))) := by
  constructor
  · exact ray_intersects_horizontal pt ed h
  · intro poly
    unfold _is_point_inside_polygon
    have := countP_filter_drop_false (fun e => _ray_intersects_segment pt e)
      (fun e => !(e.start.y == e.«end».y)) poly.edges ?_
    · rw [this]
    · intro x _ hx
      have : x.start.y = x.«end».y := by
        have := congrArg not hx
        simpa using this
      exact ray_intersects_horizontal pt x this

/-- C9 witness: a concrete horizontal edge is never crossed, and filtering
the horizontal edges out of the unit square does not change containment of
its center. -/
theorem C9_horizontal_edge_never_crosses_witness :
    (Edge.mk (Point.mk 0 0) (Point.mk 1 0)).start.y =
      (Edge.mk (Point.mk 0 0) (Point.mk 1 0)).«end».y ∧
    _ray_intersects_segment (Point.mk (1/2) (1/4)) (Edge.mk (Point.mk 0 0) (Point.mk 1 0)) = false ∧
    _is_point_inside_polygon (Point.mk (1/2) (1/2))
        (Polygon.mk [Edge.mk (Point.mk 0 0) (Point.mk 1 0),
                     Edge.mk (Point.mk 1 0) (Point.mk 1 1),
                     Edge.mk (Point.mk 1 1) (Point.mk 0 1),
                     Edge.mk (Point.mk 0 1) (Point.mk 0 0)]) =
      _is_point_inside_polygon (Point.mk (1/2) (1/2))
        (Polygon.mk ([Edge.mk (Point.mk 0 0) (Point.mk 1 0),
                      Edge.mk (Point.mk 1 0) (Point.mk 1 1),
                      Edge.mk (Point.mk 1 1) (Point.mk 0 1),
                      Edge.mk (Point.mk 0 1) (Point.mk 0 0)].filter
            (fun e => !(e.start.y == e.«end».y)))) :=
  ⟨rfl,
   (C9_horizontal_edge_never_crosses (Point.mk (1/2) (1/4))
      (Edge.mk (Point.mk 0 0) (Point.mk 1 0)) rfl).1,
   (C9_horizontal_edge_never_crosses (Point.mk (1/2) (1/2))
      (Edge.mk (Point.mk 0 0) (Point.mk 1 0)) rfl).2 _⟩

/-- C8: the per-edge crossing test does not depend on the direction of the
edge, and consequently a polygon and its reversal (every edge flipped,
clockwise versus counter-clockwise order) classify every point
identically. -/
theorem C8_direction_independent :
    (∀ (pt a b : Point),
      _ray_intersects_segment pt (Edge.mk a b) = _ray_intersects_segment pt (Edge.mk b a)) ∧
    (∀ (pt : Point) (poly : Polygon),
      _is_point_inside_polygon pt poly = _is_point_inside_polygon pt (reversePolygon poly)) := by
  refine ⟨ray_intersects_comm, fun pt poly => ?_⟩
  unfold _is_point_inside_polygon reversePolygon
  have hfun : (fun e => _ray_intersects_segment pt (Edge.mk e.«end» e.start)) =
      (fun e : Edge => _ray_intersects_segment pt e) := by
    funext e
    rw [← ray_intersects_comm pt e.start e.«end»]
  simp only [List.countP_reverse, List.countP_map, Function.comp_def, hfun]

/-! C2: coordinate resolution. -/

/-- Resolution of one coordinate component exactly as the source writes it:
final_lat = approx_lat if lat is None else lat. -/
def resolveCoordinate (exact approx : Option ℚ) : Option ℚ :=
  match exact with
  | none => approx
  | some v => v

/-- The spec wording of C2, pair-wise resolution: use the exact pair if both
exact components are present, otherwise use the approximate pair; false when
the chosen pair is incomplete. -/
def check_point_pairwise_spec (lat lon approx_lat approx_lon : Option ℚ)
    (processed_polygons : List PolygonWithBBox) : Bool :=
  match lat, lon with
  | some la, some lo =>
    processed_polygons.any (fun p =>
      _is_point_in_bbox (Point.mk lo la) p.min_p p.max_p &&
      _is_point_inside_polygon (Point.mk lo la) p.polygon)
  | _, _ =>
    match approx_lat, approx_lon with
    | some la, some lo =>
      processed_polygons.any (fun p =>
        _is_point_in_bbox (Point.mk lo la) p.min_p p.max_p &&
        _is_point_inside_polygon (Point.mk lo la) p.polygon)
    | _, _ => false

/-- Component-wise resolution, the policy the code actually implements:
each of latitude and longitude independently falls back to its approximate
value, so mixed exact/approximate pairs can be evaluated; a record whose
resolved pair is incomplete yields false. -/
def check_point_componentwise_spec (lat lon approx_lat approx_lon : Option ℚ)
    (processed_polygons : List PolygonWithBBox) : Bool :=
  match resolveCoordinate lat approx_lat, resolveCoordinate lon approx_lon with
  | some la, some lo =>
    processed_polygons.any (fun p =>
      _is_point_in_bbox (Point.mk lo la) p.min_p p.max_p &&
      _is_point_inside_polygon (Point.mk lo la) p.polygon)
  | _, _ => false

/-- The unit square as a closed ring, used as a concrete test polygon. -/
def unitSquare : Polygon :=
  Polygon.mk [Edge.mk (Point.mk 0 0) (Point.mk 1 0),
              Edge.mk (Point.mk 1 0) (Point.mk 1 1),
              Edge.mk (Point.mk 1 1) (Point.mk 0 1),
              Edge.mk (Point.mk 0 1) (Point.mk 0 0)]

/-- The unit square with its bounding box. -/
def unitSquarePW : PolygonWithBBox :=
  PolygonWithBBox.mk unitSquare (Point.mk 0 0) (Point.mk 1 1)

/-- C2 counterexample: a record with exact latitude 5 present but exact
longitude absent.  The claimed pair-wise policy would fall back to the
approximate pair (1/2, 1/2), which lies inside the unit square (true); the
code mixes exact latitude 5 with approximate longitude 1/2, a point outside
the square (false).  The claim, as stated, is therefore false. -/
theorem C2_counterexample :
    _check_point_in_any_polygon (some 5) none (some (1/2)) (some (1/2)) [unitSquarePW] = false ∧
    check_point_pairwise_spec (some 5) none (some (1/2)) (some (1/2)) [unitSquarePW] = true := by
  decide

/-- C2 amended: coordinate resolution is component-wise.  For every record
the evaluator equals the component-wise specification: exact latitude if
present else approximate latitude, and independently for longitude; if
either resolved component is still absent the result is false (never an
exception: the function is total). -/
theorem C2_componentwise_resolution (lat lon approx_lat approx_lon : Option ℚ)
    (processed_polygons : List PolygonWithBBox) :
    _check_point_in_any_polygon lat lon approx_lat approx_lon processed_polygons =
      check_point_componentwise_spec lat lon approx_lat approx_lon processed_polygons := by
  cases lat <;> cases lon <;> rfl

/-! Bounding boxes: helper lemmas about listMin and listMax. -/

lemma foldl_min_le_init (t : List ℚ) : ∀ x : ℚ, t.foldl min x ≤ x := by
  induction t with
  | nil => intro x; exact le_refl x
  | cons a t ih =>
    intro x
    exact le_trans (ih (min x a)) (min_le_left x a)

lemma foldl_min_le_mem (t : List ℚ) : ∀ x y : ℚ, y ∈ t → t.foldl min x ≤ y := by
  induction t with
  | nil => intro x y hy; cases hy
  | cons a t ih =>
    intro x y hy
    rcases List.mem_cons.mp hy with rfl | hy
    · exact le_trans (foldl_min_le_init t (min x y)) (min_le_right x y)
    · exact ih (min x a) y hy

lemma foldl_min_mem (t : List ℚ) : ∀ x : ℚ, t.foldl min x ∈ x :: t := by
  induction t with
  | nil => intro x; exact List.mem_singleton.mpr rfl
  | cons a t ih =>
    intro x
    rcases List.mem_cons.mp (ih (min x a)) with h | h
    · rcases min_choice x a with hc | hc
      · exact List.mem_cons.mpr (Or.inl (h.trans hc))
      · exact List.mem_cons.mpr (Or.inr (List.mem_cons.mpr (Or.inl (h.trans hc))))
    · exact List.mem_cons.mpr (Or.inr (List.mem_cons.mpr (Or.inr h)))

lemma foldl_max_ge_init (t : List ℚ) : ∀ x : ℚ, x ≤ t.foldl max x := by
  induction t with
  | nil => intro x; exact le_refl x
  | cons a t ih =>
    intro x
    exact le_trans (le_max_left x a) (ih (max x a))

lemma foldl_max_ge_mem (t : List ℚ) : ∀ x y : ℚ, y ∈ t → y ≤ t.foldl max x := by
  induction t with
  | nil => intro x y hy; cases hy
  | cons a t ih =>
    intro x y hy
    rcases List.mem_cons.mp hy with rfl | hy
    · exact le_trans (le_max_right x y) (foldl_max_ge_init t (max x y))
    · exact ih (max x a) y hy

lemma foldl_max_mem (t : List ℚ) : ∀ x : ℚ, t.foldl max x ∈ x :: t := by
  induction t with
  | nil => intro x; exact List.mem_singleton.mpr rfl
  | cons a t ih =>
    intro x
    rcases List.mem_cons.mp (ih (max x a)) with h | h
    · rcases max_choice x a with hc | hc
      · exact List.mem_cons.mpr (Or.inl (h.trans hc))
      · exact List.mem_cons.mpr (Or.inr (List.mem_cons.mpr (Or.inl (h.trans hc))))
    · exact List.mem_cons.mpr (Or.inr (List.mem_cons.mpr (Or.inr h)))

lemma listMin_le (l : List ℚ) (y : ℚ) (hy : y ∈ l) : listMin l ≤ y := by
  cases l with
  | nil => cases hy
  | cons x t =>
    rcases List.mem_cons.mp hy with rfl | hy
    · exact foldl_min_le_init t y
    · exact foldl_min_le_mem t x y hy

lemma listMin_mem (l : List ℚ) (hl : l ≠ []) : listMin l ∈ l := by
  cases l with
  | nil => exact absurd rfl hl
  | cons x t => exact foldl_min_mem t x

lemma le_listMax (l : List ℚ) (y : ℚ) (hy : y ∈ l) : y ≤ listMax l := by
  cases l with
  | nil => cases hy
  | cons x t =>
    rcases List.mem_cons.mp hy with rfl | hy
    · exact foldl_max_ge_init t y
    · exact foldl_max_ge_mem t x y hy

lemma listMax_mem (l : List ℚ) (hl : l ≠ []) : listMax l ∈ l := by
  cases l with
  | nil => exact absurd rfl hl
  | cons x t => exact foldl_max_mem t x

lemma vertices_xs (p : Polygon) (lastEdge : Edge) (hl : p.edges.getLast? = some lastEdge) :
    p.edges.map (fun e => e.start.x) ++ [lastEdge.«end».x] = (vertices p).map Point.x := by
  unfold vertices
  rw [hl, List.map_append, List.map_map]
  rfl

lemma vertices_ys (p : Polygon) (lastEdge : Edge) (hl : p.edges.getLast? = some lastEdge) :
    p.edges.map (fun e => e.start.y) ++ [lastEdge.«end».y] = (vertices p).map Point.y := by
  unfold vertices
  rw [hl, List.map_append, List.map_map]
  rfl

lemma get_bounding_box_bounds (p : Polygon) (min_p max_p : Point)
    (hbb : _get_bounding_box p = some (min_p, max_p)) :
    (∀ v ∈ vertices p, min_p.x ≤ v.x ∧ v.x ≤ max_p.x ∧ min_p.y ≤ v.y ∧ v.y ≤ max_p.y) ∧
    (∃ v ∈ vertices p, v.x = min_p.x) ∧ (∃ v ∈ vertices p, v.x = max_p.x) ∧
    (∃ v ∈ vertices p, v.y = min_p.y) ∧ (∃ v ∈ vertices p, v.y = max_p.y) ∧
    min_p.x ≤ max_p.x ∧ min_p.y ≤ max_p.y := by
  unfold _get_bounding_box at hbb
  cases hl : p.edges.getLast? with
  | none => rw [hl] at hbb; cases hbb
  | some lastEdge =>
    rw [hl] at hbb
    simp only [Option.some.injEq, Prod.mk.injEq] at hbb
    obtain ⟨h1, h2⟩ := hbb
    have hminx : min_p.x = listMin ((vertices p).map Point.x) := by
      rw [← h1, ← vertices_xs p lastEdge hl]
    have hminy : min_p.y = listMin ((vertices p).map Point.y) := by
      rw [← h1, ← vertices_ys p lastEdge hl]
    have hmaxx : max_p.x = listMax ((vertices p).map Point.x) := by
      rw [← h2, ← vertices_xs p lastEdge hl]
    have hmaxy : max_p.y = listMax ((vertices p).map Point.y) := by
      rw [← h2, ← vertices_ys p lastEdge hl]
    have hxne : (vertices p).map Point.x ≠ [] := by
      rw [← vertices_xs p lastEdge hl]; simp
    have hyne : (vertices p).map Point.y ≠ [] := by
      rw [← vertices_ys p lastEdge hl]; simp
    rw [hminx, hminy, hmaxx, hmaxy]
    refine ⟨?_, ?_, ?_, ?_, ?_, ?_, ?_⟩
    · intro v hv
      exact ⟨listMin_le _ _ (List.mem_map_of_mem Point.x hv),
             le_listMax _ _ (List.mem_map_of_mem Point.x hv),
             listMin_le _ _ (List.mem_map_of_mem Point.y hv),
             le_listMax _ _ (List.mem_map_of_mem Point.y hv)⟩
    · rcases List.mem_map.mp (listMin_mem _ hxne) with ⟨v, hv, hvx⟩
      exact ⟨v, hv, hvx⟩
    · rcases List.mem_map.mp (listMax_mem _ hxne) with ⟨v, hv, hvx⟩
      exact ⟨v, hv, hvx⟩
    · rcases List.mem_map.mp (listMin_mem _ hyne) with ⟨v, hv, hvy⟩
      exact ⟨v, hv, hvy⟩
    · rcases List.mem_map.mp (listMax_mem _ hyne) with ⟨v, hv, hvy⟩
      exact ⟨v, hv, hvy⟩
    · rcases List.mem_map.mp (listMax_mem _ hxne) with ⟨v, hv, hvx⟩
      rw [← hvx]
      exact listMin_le _ _ (List.mem_map_of_mem Point.x hv)
    · rcases List.mem_map.mp (listMax_mem _ hyne) with ⟨v, hv, hvy⟩
      rw [← hvy]
      exact listMin_le _ _ (List.mem_map_of_mem Point.y hv)

lemma get_bounding_box_isSome (p : Polygon) (h : p.edges ≠ []) :
    ∃ min_p max_p, _get_bounding_box p = some (min_p, max_p) := by
  unfold _get_bounding_box
  cases hl : p.edges.getLast? with
  | none =>
    exact absurd (List.getLast?_isSome.mpr h) (by rw [hl]; simp)
  | some lastEdge => exact ⟨_, _, rfl⟩

lemma preprocess_spec_aux : ∀ ps : List Polygon, (∀ p ∈ ps, p.edges ≠ []) →
    ∃ out, _preprocess_polygons ps = some out ∧ out.length = ps.length ∧
      ∀ (i : ℕ) (p : Polygon) (pw : PolygonWithBBox), ps[i]? = some p → out[i]? = some pw →
        pw.polygon = p ∧ _get_bounding_box p = some (pw.min_p, pw.max_p) := by
  intro ps
  induction ps with
  | nil =>
    intro _
    exact ⟨[], rfl, rfl, by intro i p pw hp; simp at hp⟩
  | cons p rest ih =>
    intro h
    obtain ⟨mn, mx, hbb⟩ := get_bounding_box_isSome p (h p (List.mem_cons_self p rest))
    obtain ⟨out', hpre', hlen', hidx'⟩ := ih (fun q hq => h q (List.mem_cons_of_mem p hq))
    refine ⟨PolygonWithBBox.mk p mn mx :: out', ?_, by simp [hlen'], ?_⟩
    · unfold _preprocess_polygons
      rw [hbb, hpre']
    · intro i q pw hq hpw
      cases i with
      | zero =>
        rw [List.getElem?_cons_zero] at hq hpw
        cases hq; cases hpw
        exact ⟨rfl, hbb⟩
      | succ j =>
        rw [List.getElem?_cons_succ] at hq hpw
        exact hidx' j q pw hq hpw

lemma preprocess_mem_bbox : ∀ (ps : List Polygon) (out : List PolygonWithBBox),
    _preprocess_polygons ps = some out → ∀ pw ∈ out,
      _get_bounding_box pw.polygon = some (pw.min_p, pw.max_p) := by
  intro ps
  induction ps with
  | nil =>
    intro out hout pw hmem
    unfold _preprocess_polygons at hout
    cases hout
    cases hmem
  | cons p rest ih =>
    intro out hout pw hmem
    unfold _preprocess_polygons at hout
    cases hbb : _get_bounding_box p with
    | none => rw [hbb] at hout; cases hout
    | some mnmx =>
      obtain ⟨mn, mx⟩ := mnmx
      rw [hbb] at hout
      cases hrest : _preprocess_polygons rest with
      | none => rw [hrest] at hout; cases hout
      | some processed =>
        rw [hrest] at hout
        cases hout
        rcases List.mem_cons.mp hmem with rfl | hmem'
        · exact hbb
        · exact ih processed hrest pw hmem'

/-- C5: preprocessing maps each polygon, in order, to itself paired with the
component-wise minimum and maximum over its vertices (the start of every
edge plus the end of the final edge): the box corners are lower and upper
bounds of all vertices, each corner coordinate is attained by some vertex,
and min_p is component-wise at most max_p. -/
theorem C5_preprocess_bounding_boxes (ps : List Polygon) (h : ∀ p ∈ ps, p.edges ≠ []) :
    ∃ out, _preprocess_polygons ps = some out ∧ out.length = ps.length ∧
      ∀ (i : ℕ) (p : Polygon) (pw : PolygonWithBBox), ps[i]? = some p → out[i]? = some pw →
        pw.polygon = p ∧
        pw.min_p.x ≤ pw.max_p.x ∧ pw.min_p.y ≤ pw.max_p.y ∧
        (∀ v ∈ vertices p,
          pw.min_p.x ≤ v.x ∧ v.x ≤ pw.max_p.x ∧ pw.min_p.y ≤ v.y ∧ v.y ≤ pw.max_p.y) ∧
        (∃ v ∈ vertices p, v.x = pw.min_p.x) ∧ (∃ v ∈ vertices p, v.x = pw.max_p.x) ∧
        (∃ v ∈ vertices p, v.y = pw.min_p.y) ∧ (∃ v ∈ vertices p, v.y = pw.max_p.y) := by
  obtain ⟨out, hpre, hlen, hidx⟩ := preprocess_spec_aux ps h
  refine ⟨out, hpre, hlen, ?_⟩
  intro i p pw hp hpw
  obtain ⟨hpoly, hbb⟩ := hidx i p pw hp hpw
  obtain ⟨hbounds, hminx, hmaxx, hminy, hmaxy, hle⟩ := get_bounding_box_bounds p pw.min_p pw.max_p hbb
  exact ⟨hpoly, hle.1, hle.2, hbounds, hminx, hmaxx, hminy, hmaxy⟩

/-- C5 witness: the unit square is preprocessed to itself with box corners
(0,0) and (1,1), satisfying all stated bounding-box properties. -/
theorem C5_preprocess_bounding_boxes_witness :
    (∀ p ∈ [unitSquare], p.edges ≠ []) ∧
    (∃ out, _preprocess_polygons [unitSquare] = some out ∧ out.length = [unitSquare].length ∧
      ∀ (i : ℕ) (p : Polygon) (pw : PolygonWithBBox), [unitSquare][i]? = some p → out[i]? = some pw →
        pw.polygon = p ∧
        pw.min_p.x ≤ pw.max_p.x ∧ pw.min_p.y ≤ pw.max_p.y ∧
        (∀ v ∈ vertices p,
          pw.min_p.x ≤ v.x ∧ v.x ≤ pw.max_p.x ∧ pw.min_p.y ≤ v.y ∧ v.y ≤ pw.max_p.y) ∧
        (∃ v ∈ vertices p, v.x = pw.min_p.x) ∧ (∃ v ∈ vertices p, v.x = pw.max_p.x) ∧
        (∃ v ∈ vertices p, v.y = pw.min_p.y) ∧ (∃ v ∈ vertices p, v.y = pw.max_p.y)) :=
  ⟨by decide, C5_preprocess_bounding_boxes [unitSquare] (by decide)⟩

/-- C10: _get_bounding_box is undefined (none) on a zero-edge polygon; when
every polygon has at least one edge, preprocessing and the batch evaluation
built on it succeed (all list accesses are in bounds); and preprocessing a
list containing a zero-edge polygon fails. -/
theorem C10_index_safety (ps : List Polygon) :
    _get_bounding_box (Polygon.mk []) = none ∧
    ((∀ p ∈ ps, p.edges ≠ []) →
      (_preprocess_polygons ps).isSome ∧
      ∀ df : List PointRecord, (mark_points_in_polygons df ps).isSome) ∧
    ((∃ p ∈ ps, p.edges = []) → _preprocess_polygons ps = none) := by
  refine ⟨rfl, ?_, ?_⟩
  · intro h
    obtain ⟨out, hpre, -, -⟩ := preprocess_spec_aux ps h
    constructor
    · rw [hpre]; rfl
    · intro df
      unfold mark_points_in_polygons
      rw [hpre]
      rfl
  · intro ⟨p, hp, hempty⟩
    induction ps with
    | nil => cases hp
    | cons q rest ih =>
      unfold _preprocess_polygons
      rcases List.mem_cons.mp hp with rfl | hp'
      · have : p.edges.getLast? = none := by rw [hempty]; rfl
        unfold _get_bounding_box
        rw [this]
      · cases hbq : _get_bounding_box q with
        | none => rfl
        | some mnmx =>
          obtain ⟨mn, mx⟩ := mnmx
          rw [ih hp']

/-- C10 witness: on the unit square every access is in bounds and batch
evaluation succeeds for a concrete one-record frame. -/
theorem C10_index_safety_witness :
    (∀ p ∈ [unitSquare], p.edges ≠ []) ∧
    (_preprocess_polygons [unitSquare]).isSome ∧
    (mark_points_in_polygons [PointRecord.mk (some (1/2)) (some (1/2)) none none]
      [unitSquare]).isSome :=
  ⟨by decide,
   ((C10_index_safety [unitSquare]).2.1 (by decide)).1,
   ((C10_index_safety [unitSquare]).2.1 (by decide)).2
     [PointRecord.mk (some (1/2)) (some (1/2)) none none]⟩

/-! C1: the bounding-box pre-check. -/

lemma getD_eq_getElem_of_lt {α : Type} (l : List α) (d : α) (i : ℕ) (h : i < l.length) :
    l.getD i d = l[i] := by
  rw [List.getD_eq_getElem?_getD, List.getElem?_eq_getElem h]
  rfl

lemma closedRing_endpoints_mem (p : Polygon) (hr : ClosedRing p) (e : Edge)
    (he : e ∈ p.edges) : e.start ∈ vertices p ∧ e.«end» ∈ vertices p := by
  constructor
  · exact List.mem_append_left _ (List.mem_map_of_mem Edge.start he)
  · obtain ⟨i, hi, hei⟩ := List.mem_iff_getElem.mp he
    have hri := hr i hi
    rw [getD_eq_getElem_of_lt _ _ _ hi] at hri
    have hj : (i + 1) % p.edges.length < p.edges.length :=
      Nat.mod_lt _ (Nat.lt_of_le_of_lt (Nat.zero_le i) hi)
    rw [getD_eq_getElem_of_lt _ _ _ hj] at hri
    rw [← hei, hri]
    exact List.mem_append_left _
      (List.mem_map_of_mem Edge.start (List.getElem_mem hj))

lemma ray_false_of_above_edge (pt : Point) (ed : Edge)
    (h1 : ed.start.y < pt.y) (h2 : ed.«end».y < pt.y) :
    _ray_intersects_segment pt ed = false := by
  unfold _ray_intersects_segment
  split
  · exact rayCore_false_of_above pt _ _ h2 h1
  · exact rayCore_false_of_above pt _ _ h1 h2

lemma ray_false_of_below_edge (pt : Point) (ed : Edge)
    (h1 : pt.y < ed.start.y) (h2 : pt.y < ed.«end».y) :
    _ray_intersects_segment pt ed = false := by
  unfold _ray_intersects_segment
  split
  · exact rayCore_false_of_below pt _ _ h2 h1
  · exact rayCore_false_of_below pt _ _ h1 h2

lemma ray_false_of_right_edge (pt : Point) (ed : Edge)
    (h1 : ed.start.x < pt.x) (h2 : ed.«end».x < pt.x) :
    _ray_intersects_segment pt ed = false := by
  unfold _ray_intersects_segment
  split
  · exact rayCore_false_of_right pt _ _ h2 h1
  · exact rayCore_false_of_right pt _ _ h1 h2

/-- C1 amended: for a PolygonWithBBox built by _preprocess_polygons from a
closed ring, a point that is below, above, or to the right of the bounding
box is also rejected by the full ray-casting test, so on those three sides
the bounding-box filter never changes the outcome.  (For a point to the
left of the box the equivalence fails; see the counterexample.) -/
theorem C1_bbox_reject_three_sides (ps : List Polygon) (out : List PolygonWithBBox)
    (hpre : _preprocess_polygons ps = some out) (pw : PolygonWithBBox) (hmem : pw ∈ out)
    (hr : ClosedRing pw.polygon) (pt : Point)
    (hout : pt.y < pw.min_p.y ∨ pw.max_p.y < pt.y ∨ pw.max_p.x < pt.x) :
    _is_point_inside_polygon pt pw.polygon = false := by
  have hbb := preprocess_mem_bbox ps out hpre pw hmem
  have hbounds := (get_bounding_box_bounds _ _ _ hbb).1
  unfold _is_point_inside_polygon
  have hcount : pw.polygon.edges.countP (fun e => _ray_intersects_segment pt e) = 0 := by
    rw [List.countP_eq_zero]
    intro e he
    have hs := hbounds e.start ((closedRing_endpoints_mem _ hr e he).1)
    have hen := hbounds e.«end» ((closedRing_endpoints_mem _ hr e he).2)
    simp only [Bool.not_eq_true]
    rcases hout with hc | hc | hc
    · exact ray_false_of_below_edge pt e (lt_of_lt_of_le hc hs.2.2.1)
        (lt_of_lt_of_le hc hen.2.2.1)
    · exact ray_false_of_above_edge pt e (lt_of_le_of_lt hs.2.2.2 hc)
        (lt_of_le_of_lt hen.2.2.2 hc)
    · exact ray_false_of_right_edge pt e (lt_of_le_of_lt hs.2.1 hc)
        (lt_of_le_of_lt hen.2.1 hc)
  rw [hcount]
  rfl

/-- Thin triangle whose top vertices sit closer to the base line than the
EPSILON nudge: the ray test from a point at base height to its left counts
exactly one crossing. -/
def thinTriangle : Polygon :=
  Polygon.mk [Edge.mk (Point.mk 5 0) (Point.mk 6 (1/200000)),
              Edge.mk (Point.mk 6 (1/200000)) (Point.mk 7 (1/50000)),
              Edge.mk (Point.mk 7 (1/50000)) (Point.mk 5 0)]

/-- C1 counterexample: the point (0, 0) is strictly outside the bounding box
of thinTriangle (its x is left of min_p.x = 5), yet _is_point_inside_polygon
returns true for it, because the EPSILON nudge lifts the ray above the first
two short edges but not above the closing edge.  The guarded test of
_check_point_in_any_polygon returns false for the same point, so the
bounding-box pre-check does change the containment outcome. -/
theorem C1_counterexample :
    _preprocess_polygons [thinTriangle] =
      some [PolygonWithBBox.mk thinTriangle (Point.mk 5 0) (Point.mk 7 (1/50000))] ∧
    ClosedRing thinTriangle ∧
    _is_point_in_bbox (Point.mk 0 0) (Point.mk 5 0) (Point.mk 7 (1/50000)) = false ∧
    _is_point_inside_polygon (Point.mk 0 0) thinTriangle = true ∧
    _check_point_in_any_polygon (some 0) (some 0) none none
      [PolygonWithBBox.mk thinTriangle (Point.mk 5 0) (Point.mk 7 (1/50000))] = false := by
  exact ⟨by decide, by decide, by decide, by decide, by decide⟩

/-- C1 witness: concrete instantiation of the three-sided rejection at the
unit square and the point (1/2, 2), which lies above the box. -/
theorem C1_bbox_reject_three_sides_witness :
    _preprocess_polygons [unitSquare] = some [unitSquarePW] ∧
    unitSquarePW ∈ [unitSquarePW] ∧
    ClosedRing unitSquarePW.polygon ∧
    ((Point.mk (1/2) 2).y < unitSquarePW.min_p.y ∨
      unitSquarePW.max_p.y < (Point.mk (1/2) 2).y ∨
      unitSquarePW.max_p.x < (Point.mk (1/2) 2).x) ∧
    _is_point_inside_polygon (Point.mk (1/2) 2) unitSquarePW.polygon = false :=
  ⟨by decide, by decide, by decide,
   by decide,
   C1_bbox_reject_three_sides [unitSquare] [unitSquarePW] (by decide) unitSquarePW
     (by decide) (by decide) (Point.mk (1/2) 2)
     (by decide)⟩

/-! Coordinate parsing (_parse_coordinates and the Python float builtin). -/

/-- Splits a character list at every separator character, keeping empty
pieces (the behaviour of the Python str.split with an explicit separator,
and the building block for whitespace splitting). -/
def splitOnPredAux (p : Char → Bool) : List Char → List Char → List (List Char)
  | [], cur => [cur.reverse]
  | c :: rest, cur =>
    if p c then cur.reverse :: splitOnPredAux p rest []
    else splitOnPredAux p rest (c :: cur)

def splitOnPred (p : Char → Bool) (cs : List Char) : List (List Char) :=
  splitOnPredAux p cs []

/-- Python str.split() with no argument: split on whitespace runs and drop
empty tokens. -/
def pySplitWhitespace (cs : List Char) : List (List Char) :=
  (splitOnPred Char.isWhitespace cs).filter (fun t => t ≠ [])

def digitsToNat (ds : List Char) : ℕ :=
  ds.foldl (fun acc c => 10 * acc + (c.toNat - '0'.toNat)) 0

/-- Exponent suffix of a float literal: either nothing is left, or the rest
is e or E, an optional sign and a nonempty digit run with nothing after. -/
def parseExpPart (m : ℚ) : List Char → Option ℚ
  | [] => some m
  | c :: r =>
    if c = 'e' ∨ c = 'E' then
      let sr : ℤ × List Char :=
        match r with
        | '+' :: t => (1, t)
        | '-' :: t => (-1, t)
        | t => (1, t)
      let ds := sr.2.takeWhile Char.isDigit
      let r3 := sr.2.dropWhile Char.isDigit
      if ds = [] ∨ r3 ≠ [] then none
      else some (m * (10 : ℚ) ^ (sr.1 * (digitsToNat ds : ℤ)))
    else none

/-- Unsigned mantissa of a float literal: digits with an optional point and
fraction digits; at least one digit must be present. -/
def parseMantissa (cs : List Char) : Option (ℚ × List Char) :=
  let ip := cs.takeWhile Char.isDigit
  let r1 := cs.dropWhile Char.isDigit
  match r1 with
  | '.' :: r2 =>
    let fp := r2.takeWhile Char.isDigit
    let r3 := r2.dropWhile Char.isDigit
    if ip = [] ∧ fp = [] then none
    else some ((digitsToNat ip : ℚ) + (digitsToNat fp : ℚ) / (10 : ℚ) ^ fp.length, r3)
  | _ => if ip = [] then none else some ((digitsToNat ip : ℚ), r1)

/-- Model of the Python float builtin on strings, restricted to finite
decimal literals (optional surrounding whitespace, optional sign, decimal
mantissa, optional exponent).  The inf and nan spellings and underscore
digit separators accepted by Python are not modelled; the claims settled
here do not depend on which tokens are numeric, only on how failures are
handled. -/
def parseFloat (cs : List Char) : Option ℚ :=
  let cs1 := cs.dropWhile Char.isWhitespace
  let cs2 := (cs1.reverse.dropWhile Char.isWhitespace).reverse
  match cs2 with
  | '+' :: r => (parseMantissa r).bind (fun mr => parseExpPart mr.1 mr.2)
  | '-' :: r => ((parseMantissa r).bind (fun mr => parseExpPart mr.1 mr.2)).map Neg.neg
  | r => (parseMantissa r).bind (fun mr => parseExpPart mr.1 mr.2)

/-- The body of the token loop of _parse_coordinates: split the token at
commas, require at least two components, convert the first two with float();
a conversion failure (the except branch) or a short token yields none. -/
def parseToken (tok : List Char) : Option Point :=
  let parts := splitOnPred (fun c => c = ',') tok
  if 2 ≤ parts.length then
    match parseFloat (parts.getD 0 []), parseFloat (parts.getD 1 []) with
    | some lon, some lat => some (Point.mk lon lat)
    | _, _ => none
  else none

/-- The wording of claim C6 for a single token: a token with at least two
comma-separated components whose first two components parse as numbers
yields the point (lon from the first, lat from the second); any other token
yields nothing. -/
def tokenPointSpec (tok : List Char) : Option Point :=
  match splitOnPred (fun c => c = ',') tok with
  | p0 :: p1 :: _ =>
    match parseFloat p0, parseFloat p1 with
    | some lon, some lat => some (Point.mk lon lat)
    | _, _ => none
  | _ => none

/-- The token loop of _parse_coordinates with its accumulator list
(coord_list in the source).  The emptiness re-check mirrors the
`if coord.strip():` guard; tokens produced by whitespace splitting contain
no whitespace, so stripping a token is the token itself. -/
def parseCoordLoop : List (List Char) → List Point → List Point
  | [], acc => acc
  | tok :: rest, acc =>
    if tok = [] then parseCoordLoop rest acc
    else
      match parseToken tok with
      | some pt => parseCoordLoop rest (acc ++ [pt])
      | none => parseCoordLoop rest acc

/-- Parses a KML coordinate string (_parse_coordinates of the source).
None and the empty string are falsy in the `if not coord_text:` guard. -/
def _parse_coordinates (coord_text : Option String) : List Point :=
  match coord_text with
  | none => []
  | some s =>
    if s.data = [] then []
    else parseCoordLoop (pySplitWhitespace s.data) []

lemma parseToken_eq_spec (tok : List Char) : parseToken tok = tokenPointSpec tok := by
  unfold parseToken tokenPointSpec
  cases hsplit : splitOnPred (fun c => c = ',') tok with
  | nil => simp
  | cons p0 t =>
    cases t with
    | nil => simp
    | cons p1 rest => simp

lemma parseCoordLoop_eq (toks : List (List Char)) (hne : ∀ t ∈ toks, t ≠ []) :
    ∀ acc : List Point, parseCoordLoop toks acc = acc ++ toks.filterMap parseToken := by
  induction toks with
  | nil => intro acc; simp [parseCoordLoop]
  | cons tok rest ih =>
    intro acc
    have htok : tok ≠ [] := hne tok (List.mem_cons_self tok rest)
    have hrest : ∀ t ∈ rest, t ≠ [] := fun t ht => hne t (List.mem_cons_of_mem tok ht)
    unfold parseCoordLoop
    rw [if_neg htok]
    cases hp : parseToken tok with
    | none =>
      dsimp only
      rw [ih hrest acc, List.filterMap_cons, hp]
    | some pt =>
      dsimp only
      rw [ih hrest (acc ++ [pt]), List.filterMap_cons, hp]
      simp

/-- C6: _parse_coordinates returns exactly the points of the
whitespace-separated tokens that have at least two comma components whose
first two components parse as numbers (longitude first, latitude second), in
input order; failing tokens are skipped without affecting the others, and a
missing coordinate string yields the empty list. -/
theorem C6_parse_coordinates_token_policy (s : String) :
    _parse_coordinates (some s) = (pySplitWhitespace s.data).filterMap tokenPointSpec ∧
    _parse_coordinates none = [] := by
  constructor
  · have hne : ∀ t ∈ pySplitWhitespace s.data, t ≠ [] := by
      intro t ht
      have := (List.mem_filter.mp ht).2
      simpa using this
    have hfun : parseToken = tokenPointSpec := funext parseToken_eq_spec
    show (if s.data = [] then [] else parseCoordLoop (pySplitWhitespace s.data) []) =
      (pySplitWhitespace s.data).filterMap tokenPointSpec
    by_cases hempty : s.data = []
    · rw [if_pos hempty, hempty]
      rfl
    · rw [if_neg hempty, parseCoordLoop_eq _ hne [], hfun]
      rfl
  · rfl

/-! The KML document tree and the folder search. -/

/-- An XML element as seen by xml.etree.ElementTree: a tag, an optional
text payload and a list of child elements. -/
inductive Element where
  | mk (tag : String) (text : Option String) (children : List Element)

def Element.tag : Element → String
  | .mk t _ _ => t

def Element.text : Element → Option String
  | .mk _ x _ => x

def Element.children : Element → List Element
  | .mk _ _ cs => cs

/-- Pre-order (document-order) list of all elements of a forest; for an
element e, preDescL e.children is the list of its proper descendants in the
order ElementTree findall with a .// path reports them. -/
def preDescL : List Element → List Element
  | [] => []
  | .mk t x cs :: rest => .mk t x cs :: (preDescL cs ++ preDescL rest)

/-- Weight of a forest, used as the termination measure of the recursive
folder search: a node weighs one more than twice its children. -/
def weightL : List Element → ℕ
  | [] => 0
  | .mk _ _ cs :: rest => 1 + 2 * weightL cs + weightL rest

lemma weightL_cons (e : Element) (rest : List Element) :
    weightL (e :: rest) = weightL [e] + weightL rest := by
  cases e with
  | mk t x cs => simp [weightL]

lemma weightL_append : ∀ L1 L2 : List Element, weightL (L1 ++ L2) = weightL L1 + weightL L2 := by
  intro L1
  induction L1 with
  | nil => intro L2; simp [weightL]
  | cons e t ih =>
    intro L2
    rw [List.cons_append, weightL_cons, weightL_cons e t, ih]
    omega

lemma weightL_pos (e : Element) : 1 ≤ weightL [e] := by
  cases e with
  | mk t x cs => simp [weightL]

lemma weightL_children_lt (e : Element) : 2 * weightL e.children < weightL [e] := by
  cases e with
  | mk t x cs => simp [weightL, Element.children]

lemma weightL_filter_le (p : Element → Bool) : ∀ L, weightL (L.filter p) ≤ weightL L := by
  intro L
  induction L with
  | nil => simp [weightL]
  | cons e t ih =>
    rw [List.filter_cons]
    by_cases hp : p e = true
    · rw [if_pos hp, weightL_cons, weightL_cons e t]
      omega
    · rw [if_neg hp, weightL_cons e t]
      have := weightL_pos e
      omega

lemma weightL_mem_le (g : Element) : ∀ L, g ∈ L → weightL [g] ≤ weightL L := by
  intro L
  induction L with
  | nil => intro h; cases h
  | cons e t ih =>
    intro h
    have hc : weightL (e :: t) = weightL [e] + weightL t := weightL_cons e t
    rcases List.mem_cons.mp h with rfl | h'
    · omega
    · have := ih h'
      omega

lemma weightL_preDescL_le : ∀ (n : ℕ) (L : List Element), weightL L ≤ n →
    weightL (preDescL L) ≤ 2 * weightL L := by
  intro n
  induction n with
  | zero =>
    intro L hL
    cases L with
    | nil => simp [preDescL, weightL]
    | cons e rest =>
      exfalso
      rw [weightL_cons] at hL
      have := weightL_pos e
      omega
  | succ n ih =>
    intro L hL
    cases L with
    | nil => simp [preDescL, weightL]
    | cons e rest =>
      cases e with
      | mk t x cs =>
        have hL' : 1 + 2 * weightL cs + weightL rest ≤ n + 1 := by
          simpa [weightL] using hL
        have h1 := ih cs (by omega)
        have h2 := ih rest (by omega)
        have e1 : weightL (preDescL (Element.mk t x cs :: rest)) =
            weightL [Element.mk t x cs] + (weightL (preDescL cs) + weightL (preDescL rest)) := by
          simp only [preDescL]
          rw [weightL_cons, weightL_append]
        have e2 : weightL [Element.mk t x cs] = 1 + 2 * weightL cs := by simp [weightL]
        have e3 : weightL (Element.mk t x cs :: rest) = 1 + 2 * weightL cs + weightL rest := by
          simp [weightL]
        omega

lemma mem_preDescL_trans : ∀ (n : ℕ) (L : List Element), weightL L ≤ n →
    ∀ g ∈ preDescL L, ∀ y ∈ preDescL g.children, y ∈ preDescL L := by
  intro n
  induction n with
  | zero =>
    intro L hL g hg
    cases L with
    | nil => simp [preDescL] at hg
    | cons e rest =>
      exfalso
      rw [weightL_cons] at hL
      have := weightL_pos e
      omega
  | succ n ih =>
    intro L hL g hg y hy
    cases L with
    | nil => simp [preDescL] at hg
    | cons e rest =>
      cases e with
      | mk t x cs =>
        have hL' : 1 + 2 * weightL cs + weightL rest ≤ n + 1 := by
          simpa [weightL] using hL
        simp only [preDescL] at hg ⊢
        rcases List.mem_cons.mp hg with rfl | hg'
        · exact List.mem_cons.mpr (Or.inr (List.mem_append_left _ hy))
        · rcases List.mem_append.mp hg' with hcs | hrest
          · have := ih cs (by omega) g hcs y hy
            exact List.mem_cons.mpr (Or.inr (List.mem_append_left _ this))
          · have := ih rest (by omega) g hrest y hy
            exact List.mem_cons.mpr (Or.inr (List.mem_append_right _ this))

/-- Document-order list of the Folder descendants of a forest. -/
def foldersL (ns : String) (L : List Element) : List Element :=
  (preDescL L).filter (fun x => x.tag == ns ++ "Folder")

/-- Models folder.findall with the .//ns:Folder path: every Folder
descendant of the element, in document order. -/
def findallFolders (ns : String) (e : Element) : List Element :=
  foldersL ns e.children

/-- Does this folder carry a direct child name element whose text equals the
requested name?  Models folder.find with the ./ns:name path followed by the
comparison name_elem.text == folder_name (None compares unequal). -/
def hasFolderName (ns folder_name : String) (f : Element) : Bool :=
  match f.children.find? (fun c => c.tag == ns ++ "name") with
  | some name_elem => name_elem.text == some folder_name
  | none => false

/-- The findall-then-recurse loop of _find_folder_by_name: for each Folder
descendant in document order, return it if its name matches, otherwise
search its own Folder descendants before moving on. -/
def folderSearchLoop (folder_name ns : String) : List Element → Option Element
  | [] => none
  | f :: rest =>
    if hasFolderName ns folder_name f then some f
    else
      match folderSearchLoop folder_name ns (findallFolders ns f) with
      | some r => some r
      | none => folderSearchLoop folder_name ns rest
  termination_by L => weightL L
  decreasing_by
  · have h1 : weightL (findallFolders ns f) ≤ weightL (preDescL f.children) :=
      weightL_filter_le _ _
    have h2 : weightL (preDescL f.children) ≤ 2 * weightL f.children :=
      weightL_preDescL_le _ _ (le_refl _)
    have h3 : weightL (f :: rest) = weightL [f] + weightL rest := weightL_cons f rest
    have h4 := weightL_children_lt f
    omega
  · have h3 : weightL (f :: rest) = weightL [f] + weightL rest := weightL_cons f rest
    have := weightL_pos f
    omega

/-- Recursive folder lookup (_find_folder_by_name of the source). -/
def _find_folder_by_name (root : Element) (folder_name ns : String) : Option Element :=
  folderSearchLoop folder_name ns (findallFolders ns root)

/-- A list of folders in pre-order shape: each entry is immediately followed
by the document-order list of its own Folder descendants. -/
inductive FolderChain (ns : String) : List Element → Prop where
  | nil : FolderChain ns []
  | cons (f : Element) (rest : List Element) :
      FolderChain ns rest → FolderChain ns (f :: (findallFolders ns f ++ rest))

lemma folderChain_append {ns : String} : ∀ {L1 L2 : List Element},
    FolderChain ns L1 → FolderChain ns L2 → FolderChain ns (L1 ++ L2) := by
  intro L1 L2 h1 h2
  induction h1 with
  | nil => exact h2
  | cons f rest hrest ih =>
    rw [List.cons_append, List.append_assoc]
    exact FolderChain.cons f (rest ++ L2) ih

lemma folderChain_foldersL {ns : String} : ∀ (n : ℕ) (L : List Element), weightL L ≤ n →
    FolderChain ns (foldersL ns L) := by
  intro n
  induction n with
  | zero =>
    intro L hL
    cases L with
    | nil =>
      have h0 : foldersL ns [] = [] := by simp [foldersL, preDescL]
      rw [h0]
      exact FolderChain.nil
    | cons e rest =>
      exfalso
      rw [weightL_cons] at hL
      have := weightL_pos e
      omega
  | succ n ih =>
    intro L hL
    cases L with
    | nil =>
      have h0 : foldersL ns [] = [] := by simp [foldersL, preDescL]
      rw [h0]
      exact FolderChain.nil
    | cons e rest =>
      cases e with
      | mk t x cs =>
        have hL' : 1 + 2 * weightL cs + weightL rest ≤ n + 1 := by
          simpa [weightL] using hL
        have hsplit : foldersL ns (Element.mk t x cs :: rest) =
            (if (Element.mk t x cs).tag == ns ++ "Folder" then [Element.mk t x cs] else []) ++
              (foldersL ns cs ++ foldersL ns rest) := by
          simp only [foldersL, preDescL, List.filter_cons, List.filter_append]
          split <;> simp
        rw [hsplit]
        by_cases htag : ((Element.mk t x cs).tag == ns ++ "Folder") = true
        · rw [if_pos htag]
          exact FolderChain.cons (Element.mk t x cs) (foldersL ns rest)
            (ih rest (by omega))
        · rw [if_neg htag]
          simp only [List.nil_append]
          exact folderChain_append (ih cs (by omega)) (ih rest (by omega))

lemma findallFolders_subset {ns : String} (L : List Element) (g : Element)
    (hg : g ∈ foldersL ns L) : ∀ y ∈ findallFolders ns g, y ∈ foldersL ns L := by
  intro y hy
  have hg' := List.mem_filter.mp hg
  have hy' := List.mem_filter.mp hy
  exact List.mem_filter.mpr
    ⟨mem_preDescL_trans (weightL L) L (le_refl _) g hg'.1 y hy'.1, hy'.2⟩

lemma folderSearchLoop_skip (folder_name ns : String) : ∀ (L1 L2 : List Element),
    (∀ g ∈ L1, hasFolderName ns folder_name g = false ∧
      folderSearchLoop folder_name ns (findallFolders ns g) = none) →
    folderSearchLoop folder_name ns (L1 ++ L2) = folderSearchLoop folder_name ns L2 := by
  intro L1
  induction L1 with
  | nil => intro L2 _; rfl
  | cons g t ih =>
    intro L2 h
    have hg := h g (List.mem_cons_self g t)
    have hstep : folderSearchLoop folder_name ns ((g :: t) ++ L2) =
        folderSearchLoop folder_name ns (t ++ L2) := by
      rw [List.cons_append]
      conv_lhs => rw [folderSearchLoop]
      rw [if_neg (by simp [hg.1]), hg.2]
    rw [hstep]
    exact ih L2 (fun q hq => h q (List.mem_cons_of_mem g hq))

lemma folderSearchLoop_eq (folder_name ns : String) : ∀ (n : ℕ) (L : List Element),
    weightL L ≤ n → FolderChain ns L →
    folderSearchLoop folder_name ns L = L.find? (hasFolderName ns folder_name) := by
  intro n
  induction n using Nat.strong_induction_on with
  | _ n ih =>
    intro L hw hchain
    cases hchain with
    | nil => simp [folderSearchLoop]
    | cons f rest' hrest =>
      have hwf : weightL (f :: (findallFolders ns f ++ rest')) =
          weightL [f] + (weightL (findallFolders ns f) + weightL rest') := by
        rw [weightL_cons, weightL_append]
      have hFFlt : weightL (findallFolders ns f) < weightL [f] := by
        have h1 : weightL (findallFolders ns f) ≤ weightL (preDescL f.children) :=
          weightL_filter_le _ _
        have h2 : weightL (preDescL f.children) ≤ 2 * weightL f.children :=
          weightL_preDescL_le _ _ (le_refl _)
        have h4 := weightL_children_lt f
        omega
      have hfpos := weightL_pos f
      by_cases hname : hasFolderName ns folder_name f = true
      · unfold folderSearchLoop
        rw [if_pos hname, List.find?_cons_of_pos _ hname]
      · have hchainFF : FolderChain ns (findallFolders ns f) :=
          folderChain_foldersL (weightL f.children) f.children (le_refl _)
        have hrec : folderSearchLoop folder_name ns (findallFolders ns f) =
            (findallFolders ns f).find? (hasFolderName ns folder_name) :=
          ih (weightL (findallFolders ns f)) (by omega) _ (le_refl _) hchainFF
        unfold folderSearchLoop
        rw [if_neg hname, hrec]
        cases hfind : (findallFolders ns f).find? (hasFolderName ns folder_name) with
        | some r =>
          dsimp only
          rw [List.find?_cons_of_neg _ hname, List.find?_append, hfind]
          rfl
        | none =>
          dsimp only
          have hnotin : ∀ g ∈ findallFolders ns f, hasFolderName ns folder_name g = false := by
            intro g hg
            have := List.find?_eq_none.mp hfind g hg
            simpa using this
          have hskip : folderSearchLoop folder_name ns (findallFolders ns f ++ rest') =
              folderSearchLoop folder_name ns rest' := by
            apply folderSearchLoop_skip
            intro g hg
            refine ⟨hnotin g hg, ?_⟩
            have hchaing : FolderChain ns (findallFolders ns g) :=
              folderChain_foldersL (weightL g.children) g.children (le_refl _)
            have hglt : weightL (findallFolders ns g) < weightL [g] := by
              have h1 : weightL (findallFolders ns g) ≤ weightL (preDescL g.children) :=
                weightL_filter_le _ _
              have h2 : weightL (preDescL g.children) ≤ 2 * weightL g.children :=
                weightL_preDescL_le _ _ (le_refl _)
              have h4 := weightL_children_lt g
              omega
            have hgle : weightL [g] ≤ weightL (findallFolders ns f) :=
              weightL_mem_le g _ hg
            rw [ih (weightL (findallFolders ns g)) (by omega) _ (le_refl _) hchaing]
            apply List.find?_eq_none.mpr
            intro y hy
            have hyin : y ∈ findallFolders ns f :=
              findallFolders_subset f.children g hg y hy
            simp [hnotin y hyin]
          rw [hskip, List.find?_cons_of_neg _ hname, List.find?_append, hfind]
          simp only [Option.none_or]
          exact ih (weightL rest') (by omega) rest' (le_refl _) hrest

/-- The straightforward depth-first pre-order traversal the spec describes:
visit each node of the forest in document order, return the first node
satisfying the predicate, descending into a node before moving to its
sibling. -/
def dfsFirst (p : Element → Bool) : List Element → Option Element
  | [] => none
  | .mk t x cs :: rest =>
    if p (.mk t x cs) then some (.mk t x cs)
    else
      match dfsFirst p cs with
      | some r => some r
      | none => dfsFirst p rest
  termination_by L => weightL L
  decreasing_by
  · have h3 : weightL (Element.mk t x cs :: rest) =
        weightL [Element.mk t x cs] + weightL rest := weightL_cons _ _
    have h4 := weightL_children_lt (Element.mk t x cs)
    simp only [Element.children] at h4
    omega
  · have h3 : weightL (Element.mk t x cs :: rest) =
        weightL [Element.mk t x cs] + weightL rest := weightL_cons _ _
    have := weightL_pos (Element.mk t x cs)
    omega

lemma dfsFirst_eq_find? (p : Element → Bool) : ∀ (n : ℕ) (L : List Element),
    weightL L ≤ n → dfsFirst p L = (preDescL L).find? p := by
  intro n
  induction n using Nat.strong_induction_on with
  | _ n ih =>
    intro L hw
    cases L with
    | nil => simp [dfsFirst, preDescL]
    | cons e rest =>
      cases e with
      | mk t x cs =>
        have hw' : 1 + 2 * weightL cs + weightL rest ≤ n := by
          have : weightL (Element.mk t x cs :: rest) = 1 + 2 * weightL cs + weightL rest := by
            simp [weightL]
          omega
        have hpre : preDescL (Element.mk t x cs :: rest) =
            Element.mk t x cs :: (preDescL cs ++ preDescL rest) := by
          simp [preDescL]
        rw [hpre]
        by_cases hp : p (Element.mk t x cs) = true
        · rw [List.find?_cons_of_pos _ hp]
          unfold dfsFirst
          rw [if_pos hp]
        · rw [List.find?_cons_of_neg _ hp, List.find?_append]
          unfold dfsFirst
          rw [if_neg hp]
          have hcs : dfsFirst p cs = (preDescL cs).find? p :=
            ih (weightL cs) (by omega) cs (le_refl _)
          have hrest : dfsFirst p rest = (preDescL rest).find? p :=
            ih (weightL rest) (by omega) rest (le_refl _)
          rw [hcs]
          cases hfind : (preDescL cs).find? p with
          | some r => rfl
          | none =>
            dsimp only
            rw [hrest, Option.none_or]

lemma find_folder_by_name_eq_find? (root : Element) (folder_name ns : String) :
    _find_folder_by_name root folder_name ns =
      (preDescL root.children).find?
        (fun f => f.tag == ns ++ "Folder" && hasFolderName ns folder_name f) := by
  unfold _find_folder_by_name
  rw [folderSearchLoop_eq folder_name ns (weightL (findallFolders ns root)) _ (le_refl _)
    (folderChain_foldersL (weightL root.children) root.children (le_refl _))]
  unfold findallFolders foldersL
  rw [List.find?_filter]
  congr 1
  funext f
  by_cases h1 : (f.tag == ns ++ "Folder") = true <;>
    by_cases h2 : hasFolderName ns folder_name f = true <;>
      simp [h1, h2]

/-- C3: the findall-then-recurse folder lookup equals the straightforward
depth-first pre-order traversal of the element tree returning the first
Folder element whose name child has text exactly equal (case-sensitively) to
the requested name, or none when no folder matches. -/
theorem C3_find_folder_is_dfs (root : Element) (folder_name ns : String) :
    _find_folder_by_name root folder_name ns =
      dfsFirst (fun f => f.tag == ns ++ "Folder" && hasFolderName ns folder_name f)
        root.children := by
  rw [find_folder_by_name_eq_find?,
    dfsFirst_eq_find? _ (weightL root.children) root.children (le_refl _)]

/-! The document extractor. -/

/-- Auto-detected namespace prefix: root.tag.split at the closing brace,
first component, with the brace re-appended (line 73 of the source). -/
def namespaceOf (tag : String) : String :=
  String.mk ((splitOnPred (fun c => c = '\x7d') tag.data).headD []) ++ "\x7d"

/-- Models element.find with a .//ns:tag path: the first descendant with the
given tag in document order, if any. -/
def findFirstDesc (ns tagName : String) (e : Element) : Option Element :=
  (preDescL e.children).find? (fun x => x.tag == ns ++ tagName)

/-- The body of the Placemark loop of extract_polygons_from_folder for one
placemark: find the Polygon descendant (skip when absent), its
outerBoundaryIs part (skip when absent), read the text of the coordinates
node (None when the node is missing), parse, and emit a closed polygon
unless no point was parsed.  Option.bind models the is-not-None checks. -/
def extractShape (ns : String) (placemark : Element) : Option Polygon :=
  (findFirstDesc ns ("Polygon") placemark).bind (fun polygonElem =>
    (findFirstDesc ns ("outerBoundaryIs") polygonElem).bind (fun outer_boundary =>
      match _parse_coordinates ((findFirstDesc ns ("coordinates") outer_boundary).bind
          Element.text) with
      | [] => none
      | p :: ps => some (Polygon.mk (mkEdges (p :: ps)))))

/-- Extracts polygons from a named folder of a KML document
(extract_polygons_from_folder of the source).  The document is taken as an
already parsed tree (ElementTree.parse failures are outside this model).
Each Placemark descendant of the target folder contributes one polygon via
extractShape; the edge list closes the ring by wrapping the last point back
to the first. -/
def extract_polygons_from_folder (root : Element) (folder_name : String) : List Polygon :=
  let ns := namespaceOf root.tag
  match _find_folder_by_name root folder_name ns with
  | none => []
  | some target_folder =>
    ((preDescL target_folder.children).filter (fun x => x.tag == ns ++ "Placemark")).filterMap
      (extractShape ns)

/-- C7: when no folder with the requested name exists anywhere in the
document, the extractor returns the empty list (the source also prints a
diagnostic, a side effect outside this model, and raises nothing). -/
theorem C7_missing_folder_yields_empty (root : Element) (folder_name : String)
    (h : ∀ f ∈ preDescL root.children,
      (f.tag == namespaceOf root.tag ++ "Folder" &&
        hasFolderName (namespaceOf root.tag) folder_name f) = false) :
    extract_polygons_from_folder root folder_name = [] := by
  have hnone : _find_folder_by_name root folder_name (namespaceOf root.tag) = none := by
    rw [find_folder_by_name_eq_find?]
    apply List.find?_eq_none.mpr
    intro f hf
    simp [h f hf]
  simp [extract_polygons_from_folder, hnone]

/-! C4: every extracted polygon is a nonempty closed ring. -/

lemma mkEdges_length (pts : List Point) : (mkEdges pts).length = pts.length := by
  simp [mkEdges]

lemma mkEdges_closed (pts : List Point) (_h : pts ≠ []) :
    ClosedRing (Polygon.mk (mkEdges pts)) := by
  intro i hi
  have hlen : (Polygon.mk (mkEdges pts)).edges.length = pts.length := mkEdges_length pts
  rw [hlen] at hi ⊢
  have hn : 0 < pts.length := Nat.lt_of_le_of_lt (Nat.zero_le i) hi
  have hj : (i + 1) % pts.length < pts.length := Nat.mod_lt _ hn
  have hgi : i < (mkEdges pts).length := by rw [mkEdges_length]; exact hi
  have hgj : (i + 1) % pts.length < (mkEdges pts).length := by rw [mkEdges_length]; exact hj
  show ((mkEdges pts).getD i default).«end» =
    ((mkEdges pts).getD ((i + 1) % pts.length) default).start
  rw [getD_eq_getElem_of_lt _ _ _ hgi, getD_eq_getElem_of_lt _ _ _ hgj]
  unfold mkEdges
  simp

/-- C4: every polygon the extractor emits has at least one edge and is a
closed ring built from the parsed points: n points become exactly n edges
with edges[i].end = edges[(i+1) mod n].start for every i; a shape whose
coordinate string yields no points emits no polygon (so no empty polygon
is ever in the output). -/
theorem C4_extracted_polygons_closed (root : Element) (folder_name : String)
    (poly : Polygon) (hmem : poly ∈ extract_polygons_from_folder root folder_name) :
    poly.edges ≠ [] ∧ ClosedRing poly ∧
    ∃ pts : List Point, pts ≠ [] ∧ poly = Polygon.mk (mkEdges pts) ∧
      poly.edges.length = pts.length := by
  simp only [extract_polygons_from_folder] at hmem
  cases hf : _find_folder_by_name root folder_name (namespaceOf root.tag) with
  | none =>
    rw [hf] at hmem
    simp at hmem
  | some target_folder =>
    rw [hf] at hmem
    obtain ⟨placemark, hpm, hcode⟩ := List.mem_filterMap.mp hmem
    unfold extractShape at hcode
    cases h1 : findFirstDesc (namespaceOf root.tag) ("Polygon") placemark with
    | none => rw [h1, Option.none_bind] at hcode; cases hcode
    | some polygonElem =>
      rw [h1, Option.some_bind] at hcode
      cases h2 : findFirstDesc (namespaceOf root.tag) ("outerBoundaryIs") polygonElem with
      | none => rw [h2, Option.none_bind] at hcode; cases hcode
      | some outer_boundary =>
        rw [h2, Option.some_bind] at hcode
        cases hpts : _parse_coordinates
            ((findFirstDesc (namespaceOf root.tag) ("coordinates") outer_boundary).bind
              Element.text) with
        | nil => rw [hpts] at hcode; cases hcode
        | cons p ps =>
          rw [hpts] at hcode
          dsimp only at hcode
          have hpoly : poly = Polygon.mk (mkEdges (p :: ps)) := (Option.some.inj hcode).symm
          subst hpoly
          refine ⟨?_, mkEdges_closed (p :: ps) (by simp), p :: ps, by simp, rfl,
            mkEdges_length (p :: ps)⟩
          intro hnil
          have h0 : (p :: ps).length = 0 := by
            rw [← mkEdges_length (p :: ps)]
            exact congrArg List.length hnil
          simp at h0

/-! Concrete documents for the extractor claims. -/

def nameEl : Element := .mk ("\x7bk\x7dname") (some ("flood")) []

def coordEl : Element := .mk ("\x7bk\x7dcoordinates") (some ("0,0 1,0 1,1")) []

def ringEl : Element := .mk ("\x7bk\x7dLinearRing") none [coordEl]

def obEl : Element := .mk ("\x7bk\x7douterBoundaryIs") none [ringEl]

def polyEl : Element := .mk ("\x7bk\x7dPolygon") none [obEl]

def pmEl : Element := .mk ("\x7bk\x7dPlacemark") none [polyEl]

def folderEl : Element := .mk ("\x7bk\x7dFolder") none [nameEl, pmEl]

def docWithPolygon : Element := .mk ("\x7bk\x7dkml") none [folderEl]

/-- The triangle the extractor builds from the coordinate string of
docWithPolygon. -/
def polyC4 : Polygon :=
  Polygon.mk [Edge.mk (Point.mk 0 0) (Point.mk 1 0),
              Edge.mk (Point.mk 1 0) (Point.mk 1 1),
              Edge.mk (Point.mk 1 1) (Point.mk 0 0)]

lemma preDescL_docWithPolygon : preDescL docWithPolygon.children =
    [folderEl, nameEl, pmEl, polyEl, obEl, ringEl, coordEl] := by
  simp [docWithPolygon, folderEl, nameEl, pmEl, polyEl, obEl, ringEl, coordEl,
    preDescL, Element.children]

lemma preDescL_folderEl : preDescL folderEl.children =
    [nameEl, pmEl, polyEl, obEl, ringEl, coordEl] := by
  simp [folderEl, nameEl, pmEl, polyEl, obEl, ringEl, coordEl, preDescL, Element.children]

lemma preDescL_pmEl : preDescL pmEl.children = [polyEl, obEl, ringEl, coordEl] := by
  simp [pmEl, polyEl, obEl, ringEl, coordEl, preDescL, Element.children]

lemma preDescL_polyEl : preDescL polyEl.children = [obEl, ringEl, coordEl] := by
  simp [polyEl, obEl, ringEl, coordEl, preDescL, Element.children]

lemma preDescL_obEl : preDescL obEl.children = [ringEl, coordEl] := by
  simp [obEl, ringEl, coordEl, preDescL, Element.children]

lemma findallFolders_docWithPolygon :
    findallFolders ("\x7bk\x7d") docWithPolygon = [folderEl] := by
  unfold findallFolders foldersL
  rw [preDescL_docWithPolygon]
  rfl

lemma find_folder_docWithPolygon :
    _find_folder_by_name docWithPolygon ("flood") ("\x7bk\x7d") = some folderEl := by
  unfold _find_folder_by_name
  rw [findallFolders_docWithPolygon]
  unfold folderSearchLoop
  rw [if_pos (show hasFolderName ("\x7bk\x7d") ("flood") folderEl = true from rfl)]

lemma filterMap_singleton_of_some {A B : Type} (f : A → Option B) (a : A) (b : B)
    (h : f a = some b) : List.filterMap f [a] = [b] := by
  rw [List.filterMap_cons, h]
  rfl

lemma extractShape_pmEl : extractShape ("\x7bk\x7d") pmEl = some polyC4 := by
  have hfd1 : findFirstDesc ("\x7bk\x7d") ("Polygon") pmEl = some polyEl := by
    unfold findFirstDesc
    rw [preDescL_pmEl]
    rfl
  have hfd2 : findFirstDesc ("\x7bk\x7d") ("outerBoundaryIs") polyEl = some obEl := by
    unfold findFirstDesc
    rw [preDescL_polyEl]
    rfl
  have hfd3 : findFirstDesc ("\x7bk\x7d") ("coordinates") obEl = some coordEl := by
    unfold findFirstDesc
    rw [preDescL_obEl]
    rfl
  have hparse : _parse_coordinates ((some coordEl).bind Element.text) =
      [Point.mk 0 0, Point.mk 1 0, Point.mk 1 1] := by decide
  unfold extractShape
  rw [hfd1, Option.some_bind, hfd2, Option.some_bind, hfd3, hparse]
  decide

lemma extract_eq_of_found (root : Element) (folder_name : String) (tf : Element)
    (hf : _find_folder_by_name root folder_name (namespaceOf root.tag) = some tf) :
    extract_polygons_from_folder root folder_name =
      ((preDescL tf.children).filter
        (fun x => x.tag == namespaceOf root.tag ++ "Placemark")).filterMap
        (extractShape (namespaceOf root.tag)) := by
  simp only [extract_polygons_from_folder, hf]

lemma extract_docWithPolygon :
    extract_polygons_from_folder docWithPolygon ("flood") = [polyC4] := by
  have hns : namespaceOf docWithPolygon.tag = ("\x7bk\x7d") := rfl
  have hfilter : (preDescL folderEl.children).filter
      (fun x => x.tag == ("\x7bk\x7d") ++ "Placemark") = [pmEl] := by
    rw [preDescL_folderEl]
    rfl
  rw [extract_eq_of_found docWithPolygon ("flood") folderEl
    (by rw [hns]; exact find_folder_docWithPolygon)]
  rw [hns, hfilter]
  exact filterMap_singleton_of_some _ _ _ extractShape_pmEl

/-- C4 witness: the concrete document yields the closed triangle polyC4, and
the claim theorem applies to it. -/
theorem C4_extracted_polygons_closed_witness :
    polyC4 ∈ extract_polygons_from_folder docWithPolygon ("flood") ∧
    (polyC4.edges ≠ [] ∧ ClosedRing polyC4 ∧
      ∃ pts : List Point, pts ≠ [] ∧ polyC4 = Polygon.mk (mkEdges pts) ∧
        polyC4.edges.length = pts.length) := by
  have hmem : polyC4 ∈ extract_polygons_from_folder docWithPolygon ("flood") := by
    rw [extract_docWithPolygon]
    exact List.mem_singleton.mpr rfl
  exact ⟨hmem, C4_extracted_polygons_closed docWithPolygon ("flood") polyC4 hmem⟩

/-- A document whose only folder is named otherwise. -/
def docNoFolder : Element :=
  .mk ("\x7bk\x7dkml") none
    [.mk ("\x7bk\x7dDocument") none
      [.mk ("\x7bk\x7dFolder") none
        [.mk ("\x7bk\x7dname") (some ("other")) []]]]

/-- C7 witness: requesting the folder flood from a document whose only
folder is named other yields the empty list. -/
theorem C7_missing_folder_yields_empty_witness :
    (∀ f ∈ preDescL docNoFolder.children,
      (f.tag == namespaceOf docNoFolder.tag ++ "Folder" &&
        hasFolderName (namespaceOf docNoFolder.tag) ("flood") f) = false) ∧
    extract_polygons_from_folder docNoFolder ("flood") = [] := by
  have h : ∀ f ∈ preDescL docNoFolder.children,
      (f.tag == namespaceOf docNoFolder.tag ++ "Folder" &&
        hasFolderName (namespaceOf docNoFolder.tag) ("flood") f) = false := by
    have hlist : preDescL docNoFolder.children =
        [.mk ("\x7bk\x7dDocument") none
          [.mk ("\x7bk\x7dFolder") none [.mk ("\x7bk\x7dname") (some ("other")) []]],
         .mk ("\x7bk\x7dFolder") none [.mk ("\x7bk\x7dname") (some ("other")) []],
         .mk ("\x7bk\x7dname") (some ("other")) []] := by
      simp [docNoFolder, preDescL, Element.children]
    rw [hlist]
    intro f hf
    rcases List.mem_cons.mp hf with rfl | hf1
    · rfl
    rcases List.mem_cons.mp hf1 with rfl | hf2
    · rfl
    rcases List.mem_cons.mp hf2 with rfl | hf3
    · rfl
    cases hf3
  exact ⟨h, C7_missing_folder_yields_empty docNoFolder ("flood") h⟩

end Geo
